import Mathlib

/-!
Verification of the gopls workspace-recognition probe
(`test_gopls_workspace.py`) against its natural-language specification.

The script is embedded shallowly:

* Python strings become `List Char`; `str.lower` becomes `List.map
  Char.toLower` (the texts the probe inspects are ASCII, where Python's
  `lower` and Lean's `Char.toLower` agree).
* The verdict classification (lines 92-97 of the script) becomes the pure
  function `classify`.
* `create_lsp_message` becomes `createLspMessage` over an inductive JSON
  value type mirroring `json.dumps` with its default options
  (`ensure_ascii=True`, separators `", "` and `": "`).
* The control flow of `test_workspace_recognition` (try/except/finally)
  and of `__main__` becomes `runScenario` / `runAll`.
-/

set_option maxHeartbeats 1000000

/-- The three-valued verdict printed by the probe: `recognized` for the
`✅` line, `notRecognized` for the `❌` line, `inconclusive` for the `?`
line. -/
inductive Verdict where
  | recognized
  | notRecognized
  | inconclusive
deriving DecidableEq

/-- Python `text.lower()` restricted to the ASCII case mapping, as
`Char.toLower` on every character. -/
def lowerStr (s : List Char) : List Char := s.map Char.toLower

/-- `hasPrefixCL n s` holds when the char list `n` is a prefix of `s`. -/
def hasPrefixCL : List Char → List Char → Bool
  | [], _ => true
  | _ :: _, [] => false
  | a :: as, b :: bs => a == b && hasPrefixCL as bs

/-- Python's substring test `needle in hay` on strings, as lists of
characters. -/
def containsSub : List Char → List Char → Bool
  | needle, [] => needle.isEmpty
  | needle, b :: bs => hasPrefixCL needle (b :: bs) || containsSub needle bs

/-- The marker of the first branch: `"go.mod" in stderr.lower()`. -/
def goModMarker : List Char := "go.mod".data

/-- First marker of the `elif` branch: `"no go.mod" in stderr.lower()`. -/
def noGoModMarker : List Char := "no go.mod".data

/-- Second marker of the `elif` branch: `"not found" in stderr.lower()`. -/
def notFoundMarker : List Char := "not found".data

/-- Lines 92-97 of the script: the ordered, case-insensitive substring
checks over the captured stderr text that select which verdict line is
printed. -/
def classify (stderrText : List Char) : Verdict :=
  if containsSub goModMarker (lowerStr stderrText) then .recognized
  else if containsSub noGoModMarker (lowerStr stderrText)
      || containsSub notFoundMarker (lowerStr stderrText) then .notRecognized
  else .inconclusive

theorem hasPrefixCL_iff (n s : List Char) : hasPrefixCL n s = true ↔ ∃ t, s = n ++ t := by
  induction n generalizing s with
  | nil =>
    simp [hasPrefixCL]
  | cons a as ih =>
    cases s with
    | nil =>
      simp [hasPrefixCL]
    | cons b bs =>
      simp only [hasPrefixCL, Bool.and_eq_true, beq_iff_eq, ih, List.cons_append,
        List.cons.injEq]
      constructor
      · rintro ⟨rfl, t, rfl⟩
        exact ⟨t, rfl, rfl⟩
      · rintro ⟨t, rfl, rfl⟩
        exact ⟨rfl, t, rfl⟩

theorem containsSub_iff (n s : List Char) : containsSub n s = true ↔ ∃ p q, s = p ++ n ++ q := by
  induction s with
  | nil =>
    simp only [containsSub, List.isEmpty_iff]
    constructor
    · rintro rfl
      exact ⟨[], [], rfl⟩
    · rintro ⟨p, q, hpq⟩
      rcases List.append_eq_nil.1 hpq.symm with ⟨h1, h2⟩
      rcases List.append_eq_nil.1 h1 with ⟨_, h3⟩
      exact h3
  | cons b bs ih =>
    simp only [containsSub, Bool.or_eq_true, hasPrefixCL_iff, ih]
    constructor
    · rintro (⟨t, ht⟩ | ⟨p, q, hpq⟩)
      · exact ⟨[], t, by simpa using ht⟩
      · exact ⟨b :: p, q, by simp [hpq]⟩
    · rintro ⟨p, q, hpq⟩
      cases p with
      | nil => exact Or.inl ⟨q, by simpa using hpq⟩
      | cons c p2 =>
        obtain ⟨rfl, h2⟩ : b = c ∧ bs = p2 ++ n ++ q := by simpa using hpq
        exact Or.inr ⟨p2, q, h2⟩

/-- A text containing `"no go.mod"` also contains `"go.mod"`. -/
theorem containsSub_goMod_of_noGoMod (s : List Char)
    (h : containsSub noGoModMarker s = true) : containsSub goModMarker s = true := by
  rcases (containsSub_iff _ _).1 h with ⟨p, q, rfl⟩
  refine (containsSub_iff _ _).2 ⟨p ++ "no ".data, q, ?_⟩
  have hsplit : noGoModMarker = "no ".data ++ goModMarker := by decide
  rw [hsplit]
  simp [List.append_assoc]

/-- `Char.ofNat` evaluates to the given code point below the surrogate
range. -/
theorem toNat_ofNat_of_lt {n : Nat} (h : n < 55296) : (Char.ofNat n).toNat = n := by
  rw [Char.ofNat, dif_pos (Or.inl h)]
  rfl

/-- The ASCII case mapping is idempotent. -/
theorem toLower_toLower (c : Char) : c.toLower.toLower = c.toLower := by
  unfold Char.toLower
  by_cases h : c.toNat ≥ 65 ∧ c.toNat ≤ 90
  · rw [if_pos h]
    have hv : (Char.ofNat (c.toNat + 32)).toNat = c.toNat + 32 :=
      toNat_ofNat_of_lt (by omega)
    rw [if_neg]
    rw [hv]
    omega
  · rw [if_neg h, if_neg h]

theorem lowerStr_idem (s : List Char) : lowerStr (lowerStr s) = lowerStr s := by
  induction s with
  | nil => rfl
  | cons c cs ih =>
    simp only [lowerStr, List.map_cons] at ih ⊢
    rw [toLower_toLower, ih]

/-- C1: evaluation of the classifier at the stderr text `"no go.mod found"`.
The first branch (`"go.mod" in stderr.lower()`) matches inside
`"no go.mod found"`, so the script prints the `recognized` verdict, not the
`not-recognized` verdict the specification's end-to-end example 1 demands;
the `elif` disjunct `"no go.mod" in stderr.lower()` can never fire. -/
theorem classify_no_go_mod_found :
    classify ("no go.mod found".data) = .recognized := by decide

/-- C3: if the captured stderr text contains the found marker `"go.mod"`
together with either not-found marker (`"no go.mod"` or `"not found"`), in
any order of appearance, the verdict is `recognized`: the found check is
evaluated first. -/
theorem classify_tie_break (s : List Char)
    (hfound : containsSub goModMarker (lowerStr s) = true)
    (_hnot : containsSub noGoModMarker (lowerStr s) = true
      ∨ containsSub notFoundMarker (lowerStr s) = true) :
    classify s = .recognized := by
  simp [classify, hfound]

/-- Witness for C3 at the concrete stderr text `"go.mod not found"`. -/
theorem classify_tie_break_witness :
    (containsSub goModMarker (lowerStr ("go.mod not found".data)) = true
      ∧ containsSub notFoundMarker (lowerStr ("go.mod not found".data)) = true)
    ∧ classify ("go.mod not found".data) = .recognized :=
  ⟨⟨by decide, by decide⟩, classify_tie_break ("go.mod not found".data) (by decide)
    (Or.inr (by decide))⟩

/-- C5: the classifier is total — for every stderr text it returns exactly
one of the three verdicts. -/
theorem classify_total (s : List Char) :
    classify s = .recognized ∨ classify s = .notRecognized ∨ classify s = .inconclusive := by
  unfold classify
  split
  · exact Or.inl rfl
  · split
    · exact Or.inr (Or.inl rfl)
    · exact Or.inr (Or.inr rfl)

/-- C9: the classifier is case-insensitive — the verdict of a text equals
the verdict of its lowercase form, because the checks only inspect the
lowered text and lowering is idempotent. -/
theorem classify_case_insensitive (s : List Char) :
    classify s = classify (lowerStr s) := by
  simp only [classify, lowerStr_idem]

/-- C10: the `not-recognized` verdict is reachable only for texts whose
lowered form contains `"not found"` but not `"go.mod"`; any text whose
lowered form contains `"no go.mod"` is classified `recognized`. -/
theorem not_recognized_reachability (s : List Char) :
    (classify s = .notRecognized →
      containsSub notFoundMarker (lowerStr s) = true
        ∧ containsSub goModMarker (lowerStr s) = false)
    ∧ (containsSub noGoModMarker (lowerStr s) = true → classify s = .recognized) := by
  constructor
  · intro h
    unfold classify at h
    by_cases hgo : containsSub goModMarker (lowerStr s) = true
    · simp [hgo] at h
    · rw [if_neg (by simpa using hgo)] at h
      refine ⟨?_, by simpa using hgo⟩
      by_cases hnf : containsSub notFoundMarker (lowerStr s) = true
      · exact hnf
      · by_cases hng : containsSub noGoModMarker (lowerStr s) = true
        · exact absurd (containsSub_goMod_of_noGoMod _ hng) hgo
        · rw [if_neg] at h
          · exact absurd h (by simp)
          · simp [hnf, hng]
  · intro h
    have := containsSub_goMod_of_noGoMod _ h
    simp [classify, this]

/-- Witness for C10 at the concrete stderr text `"No go.mod in dir"`. -/
theorem not_recognized_reachability_witness :
    containsSub noGoModMarker (lowerStr ("No go.mod in dir".data)) = true
    ∧ classify ("No go.mod in dir".data) = .recognized :=
  ⟨by decide, (not_recognized_reachability ("No go.mod in dir".data)).2 (by decide)⟩

/-- The triple returned to the harness by the drained subprocess: captured
stdout text, captured stderr text, and the process exit status (visible to
the script through `process.poll()` / `process.returncode`). -/
structure DrainResult where
  stdoutText : List Char
  stderrText : List Char
  exitCode : Int

/-- Lines 92-97 of the script compute the verdict from `stderr.lower()`
alone; neither the captured stdout (printed but never tested) nor the exit
status (used only for cleanup in `finally`) enters the classification. -/
def scenarioVerdict (d : DrainResult) : Verdict := classify d.stderrText

/-- C8: the verdict is a function of the captured stderr text alone — two
drain results with identical stderr text receive identical verdicts,
whatever their stdout texts and exit codes. -/
theorem verdict_depends_only_on_stderr (d1 d2 : DrainResult)
    (h : d1.stderrText = d2.stderrText) :
    scenarioVerdict d1 = scenarioVerdict d2 := by
  simp [scenarioVerdict, h]

/-- Witness for C8: two drain results differing in stdout and exit code but
agreeing on stderr. -/
theorem verdict_depends_only_on_stderr_witness :
    scenarioVerdict ⟨"log A".data, "using go.mod".data, 0⟩
      = scenarioVerdict ⟨"log B".data, "using go.mod".data, 1⟩ :=
  verdict_depends_only_on_stderr ⟨"log A".data, "using go.mod".data, 0⟩
    ⟨"log B".data, "using go.mod".data, 1⟩ rfl

/-- The step of `test_workspace_recognition` at which the collaborator
subprocess makes the script's `try` block raise: `spawn` for
`subprocess.Popen` itself (e.g. the `docker` executable is absent),
the three `stdin.write`/`flush` calls for a closed pipe, `drain` for
`process.communicate(timeout=5)` (e.g. `TimeoutExpired`). -/
inductive FailStep where
  | spawn
  | sendInit
  | sendInitialized
  | sendDidOpen
  | drain
deriving DecidableEq

/-- One scenario of the runner together with the behavior of its
collaborator subprocess: where (if anywhere) the `try` block raises, and
the streams captured when nothing raises. -/
structure ScenarioBehavior where
  uri : List Char
  description : List Char
  failAt : Option FailStep
  stdoutText : List Char
  stderrText : List Char

/-- One line printed by the script, by shape. -/
inductive OutLine where
  | header (description : List Char)
  | uriLine (uri : List Char)
  | stdoutPreview (t : List Char)
  | stderrPreview (t : List Char)
  | verdictLine (v : Verdict)
  | errorLine
deriving DecidableEq

/-- The control flow of `test_workspace_recognition` for one scenario:
the list of lines it prints, and whether an exception escapes the call.

* No failure: the header and URI lines, the truncated stream previews, and
  the verdict line selected by `classify` are printed; nothing escapes.
* A failure after a successful spawn: `except Exception` prints the
  `Error: ...` line, the `finally` block finds `process` bound and cleans
  up, and the call returns normally.
* A spawn failure: `except Exception` prints the `Error: ...` line, but the
  `finally` block evaluates `process.poll()` with the local `process` never
  assigned, so an `UnboundLocalError` is raised from `finally` and escapes
  the call. -/
def runScenario (b : ScenarioBehavior) : List OutLine × Bool :=
  match b.failAt with
  | some .spawn => ([.header b.description, .uriLine b.uri, .errorLine], true)
  | some _ => ([.header b.description, .uriLine b.uri, .errorLine], false)
  | none =>
      ([.header b.description, .uriLine b.uri,
        .stdoutPreview (b.stdoutText.take 500), .stderrPreview (b.stderrText.take 500),
        .verdictLine (classify b.stderrText)], false)

/-- The `__main__` block: run the scenarios in order; an exception
escaping `test_workspace_recognition` is unhandled there and aborts the
whole script, so no later scenario runs. -/
def runAll : List ScenarioBehavior → List OutLine
  | [] => []
  | b :: bs =>
      let r := runScenario b
      if r.2 then r.1 else r.1 ++ runAll bs

/-- Recognizer for verdict lines in the printed output. -/
def isVerdictLine : OutLine → Bool
  | .verdictLine _ => true
  | _ => false

/-- The first scenario of `__main__` with its collaborator failing at
spawn (the `docker` executable is absent). -/
def spawnFailScenario : ScenarioBehavior :=
  ⟨"file:///Users/ksoichiro/src/github.com/ksoichiro/container.nvim".data,
   "Host path (current behavior - should FAIL)".data, some .spawn, [], []⟩

/-- The second scenario of `__main__`, with a collaborator that would
succeed. -/
def containerScenario : ScenarioBehavior :=
  ⟨"file:///workspace".data, "Container path (Strategy B - should SUCCEED)".data,
   none, [], "using go.mod at /workspace".data⟩

/-- C4 counterexample: when the first scenario's spawn fails, the run
aborts — the output is exactly the first scenario's lines, contains no
verdict line at all, and nothing of the second scenario (whose own run
would have printed its header and a `recognized` verdict line). -/
theorem spawn_failure_aborts_run :
    runAll [spawnFailScenario, containerScenario]
      = [.header spawnFailScenario.description, .uriLine spawnFailScenario.uri, .errorLine]
    ∧ (runAll [spawnFailScenario, containerScenario]).countP isVerdictLine = 0
    ∧ OutLine.header containerScenario.description
        ∉ runAll [spawnFailScenario, containerScenario]
    ∧ (runScenario containerScenario).1.countP isVerdictLine = 1 := by
  refine ⟨rfl, rfl, ?_, ?_⟩
  · decide
  · rfl

/-- C4 amended: a failure at any step other than spawn is scenario-local —
the failed scenario still prints an `Error:` line (though no verdict line),
no exception escapes, and the runner proceeds to the remaining
scenarios. -/
theorem non_spawn_failure_is_scenario_local (b : ScenarioBehavior)
    (bs : List ScenarioBehavior) (f : FailStep)
    (hf : b.failAt = some f) (hs : f ≠ .spawn) :
    runScenario b = ([.header b.description, .uriLine b.uri, .errorLine], false)
    ∧ runAll (b :: bs) = (runScenario b).1 ++ runAll bs := by
  have hrun : runScenario b = ([.header b.description, .uriLine b.uri, .errorLine], false) := by
    unfold runScenario
    rw [hf]
    cases f with
    | spawn => exact absurd rfl hs
    | sendInit => rfl
    | sendInitialized => rfl
    | sendDidOpen => rfl
    | drain => rfl
  refine ⟨hrun, ?_⟩
  have hstep : runAll (b :: bs)
      = (let r := runScenario b; if r.2 then r.1 else r.1 ++ runAll bs) := rfl
  rw [hstep, hrun]
  rfl

/-- Witness for the amended C4: a drain timeout in the first scenario still
lets the second scenario run. -/
theorem non_spawn_failure_is_scenario_local_witness :
    runScenario ⟨"file:///workspace".data, "first".data, some .drain, [], []⟩
      = ([.header "first".data, .uriLine "file:///workspace".data, .errorLine], false)
    ∧ runAll [⟨"file:///workspace".data, "first".data, some .drain, [], []⟩, containerScenario]
      = (runScenario ⟨"file:///workspace".data, "first".data, some .drain, [], []⟩).1
          ++ runAll [containerScenario] :=
  non_spawn_failure_is_scenario_local
    ⟨"file:///workspace".data, "first".data, some .drain, [], []⟩
    [containerScenario] .drain rfl (by decide)

/-- JSON values as manipulated by the script: `None`, booleans, integers,
strings, lists, and dicts (insertion-ordered key/value pairs). These are
the only payload shapes `test_workspace_recognition` builds. -/
inductive JVal where
  | jnull
  | jbool (b : Bool)
  | jint (n : Int)
  | jstr (s : List Char)
  | jarr (elems : List JVal)
  | jobj (fields : List (List Char × JVal))

/-- Lowercase hex digit for a value below 16, as emitted by
`json.dumps`'s `\uXXXX` escapes. -/
def hexDigitChar (d : Nat) : Char :=
  if d < 10 then Char.ofNat (48 + d) else Char.ofNat (87 + d)

/-- Four lowercase hex digits, most significant first. -/
def hex4 (n : Nat) : List Char :=
  [hexDigitChar (n / 4096 % 16), hexDigitChar (n / 256 % 16),
   hexDigitChar (n / 16 % 16), hexDigitChar (n % 16)]

/-- `json.dumps` string escaping with its default `ensure_ascii=True`:
`"` and `\` get two-character escapes, the five control characters with
short names get theirs, every other character from space to `~` is
literal, and everything else becomes `\uXXXX` (a surrogate pair for
code points above `0xFFFF`). -/
def escapeChar (c : Char) : List Char :=
  if c.toNat = 34 then ['\\', '"']
  else if c.toNat = 92 then ['\\', '\\']
  else if c.toNat = 8 then ['\\', 'b']
  else if c.toNat = 9 then ['\\', 't']
  else if c.toNat = 10 then ['\\', 'n']
  else if c.toNat = 12 then ['\\', 'f']
  else if c.toNat = 13 then ['\\', 'r']
  else if 32 ≤ c.toNat ∧ c.toNat ≤ 126 then [c]
  else if c.toNat < 65536 then '\\' :: 'u' :: hex4 c.toNat
  else ('\\' :: 'u' :: hex4 (55296 + (c.toNat - 65536) / 1024))
    ++ ('\\' :: 'u' :: hex4 (56320 + (c.toNat - 65536) % 1024))

/-- Escape every character of a string body. -/
def escapeStr : List Char → List Char
  | [] => []
  | c :: cs => escapeChar c ++ escapeStr cs

/-- Decimal digits of a natural number, most significant first, as in
Python's `repr` of a nonnegative `int`. -/
def natDigits (n : Nat) : List Char :=
  if h : n < 10 then [Char.ofNat (48 + n)]
  else natDigits (n / 10) ++ [Char.ofNat (48 + n % 10)]
termination_by n
decreasing_by exact Nat.div_lt_self (by omega) (by omega)

/-- Python's textual form of an `int`: decimal digits, with a leading
`-` for negatives. -/
def intChars : Int → List Char
  | .ofNat n => natDigits n
  | .negSucc m => '-' :: natDigits (m + 1)

mutual
/-- `json.dumps` with its defaults: compact except for a space after each
`,` and `:` separator (`", "` / `": "`), `ensure_ascii` escaping. -/
def dumpVal : JVal → List Char
  | .jnull => ['n', 'u', 'l', 'l']
  | .jbool true => ['t', 'r', 'u', 'e']
  | .jbool false => ['f', 'a', 'l', 's', 'e']
  | .jint i => intChars i
  | .jstr s => '"' :: escapeStr s ++ ['"']
  | .jarr [] => ['[', ']']
  | .jarr (x :: xs) => '[' :: dumpVal x ++ dumpElems xs ++ [']']
  | .jobj [] => ['\x7b', '\x7d']
  | .jobj (f :: fs) => '\x7b' :: dumpMember f ++ dumpMembers fs ++ ['\x7d']

/-- The remaining elements of a nonempty list, each preceded by `", "`. -/
def dumpElems : List JVal → List Char
  | [] => []
  | x :: xs => ',' :: ' ' :: dumpVal x ++ dumpElems xs

/-- One dict entry: quoted escaped key, `": "`, value. -/
def dumpMember : List Char × JVal → List Char
  | (k, v) => '"' :: escapeStr k ++ '"' :: ':' :: ' ' :: dumpVal v

/-- The remaining entries of a nonempty dict, each preceded by `", "`. -/
def dumpMembers : List (List Char × JVal) → List Char
  | [] => []
  | f :: fs => ',' :: ' ' :: dumpMember f ++ dumpMembers fs
end

/-- The argument triple of `create_lsp_message`: a method name, a params
payload, and an optional request identifier (`id=None` means the field is
omitted). -/
structure ProtocolMessage where
  method : List Char
  params : JVal
  id : Option JVal

/-- The dict built by `create_lsp_message`, in insertion order: `jsonrpc`,
`method`, `params`, then `id` only when an identifier was supplied. -/
def msgFields (m : ProtocolMessage) : List (List Char × JVal) :=
  [("jsonrpc".data, .jstr "2.0".data),
   ("method".data, .jstr m.method),
   ("params".data, m.params)]
  ++ (match m.id with
      | some i => [("id".data, i)]
      | none => [])

/-- The message dict as a JSON value. -/
def msgJson (m : ProtocolMessage) : JVal := .jobj (msgFields m)

/-- `create_lsp_message`: serialize the dict with `json.dumps` and prepend
the frame header `Content-Length: {len(content)}\r\n\r\n`. Python's `len`
counts characters; with `ensure_ascii` output the two notions coincide. -/
def createLspMessage (m : ProtocolMessage) : List Char :=
  let content := dumpVal (msgJson m)
  "Content-Length: ".data ++ natDigits content.length
    ++ ('\r' :: '\n' :: '\r' :: '\n' :: content)

/-- Number of bytes of the UTF-8 encoding of one character. -/
def utf8Width (c : Char) : Nat :=
  if c.toNat < 128 then 1
  else if c.toNat < 2048 then 2
  else if c.toNat < 65536 then 3
  else 4

/-- Number of bytes of the UTF-8 encoding of a string. -/
def utf8Len : List Char → Nat
  | [] => 0
  | c :: cs => utf8Width c + utf8Len cs

/-- A string is ASCII-only when every character is below 128. -/
def asciiOnly (s : List Char) : Bool := s.all (fun c => c.toNat < 128)

theorem utf8Len_eq_length {s : List Char} (h : asciiOnly s = true) :
    utf8Len s = s.length := by
  induction s with
  | nil => rfl
  | cons c cs ih =>
    simp only [asciiOnly, List.all_cons, Bool.and_eq_true, decide_eq_true_eq] at h
    have hw : utf8Width c = 1 := by
      unfold utf8Width
      rw [if_pos h.1]
    simp only [utf8Len, List.length_cons, hw, ih (by simpa [asciiOnly] using h.2)]
    omega

theorem asciiOnly_append (a b : List Char) :
    asciiOnly (a ++ b) = (asciiOnly a && asciiOnly b) := by
  simp [asciiOnly]

theorem asciiOnly_cons (c : Char) (s : List Char) :
    asciiOnly (c :: s) = (decide (c.toNat < 128) && asciiOnly s) := by
  simp [asciiOnly]

theorem hexDigitChar_toNat {d : Nat} (h : d < 16) :
    (hexDigitChar d).toNat = if d < 10 then 48 + d else 87 + d := by
  unfold hexDigitChar
  split
  · rw [toNat_ofNat_of_lt (by omega)]
  · rw [toNat_ofNat_of_lt (by omega)]

theorem hexDigitChar_toNat_lt {d : Nat} (h : d < 16) : (hexDigitChar d).toNat < 128 := by
  unfold hexDigitChar
  split
  · rw [toNat_ofNat_of_lt (by omega)]
    omega
  · rw [toNat_ofNat_of_lt (by omega)]
    omega

theorem asciiOnly_hex4 (n : Nat) : asciiOnly (hex4 n) = true := by
  simp only [hex4, asciiOnly, List.all_cons, List.all_nil, Bool.and_eq_true,
    decide_eq_true_eq, and_true]
  exact ⟨hexDigitChar_toNat_lt (Nat.mod_lt _ (by omega)),
    hexDigitChar_toNat_lt (Nat.mod_lt _ (by omega)),
    hexDigitChar_toNat_lt (Nat.mod_lt _ (by omega)),
    hexDigitChar_toNat_lt (Nat.mod_lt _ (by omega))⟩

theorem asciiOnly_escapeChar (c : Char) : asciiOnly (escapeChar c) = true := by
  have hhex : ∀ n : Nat, asciiOnly ('\\' :: 'u' :: hex4 n) = true := by
    intro n
    rw [asciiOnly_cons, asciiOnly_cons, asciiOnly_hex4]
    decide
  unfold escapeChar
  split
  · decide
  split
  · decide
  split
  · decide
  split
  · decide
  split
  · decide
  split
  · decide
  split
  · decide
  split
  · rename_i h8
    simp only [asciiOnly, List.all_cons, List.all_nil, Bool.and_eq_true, decide_eq_true_eq,
      and_true]
    omega
  split
  · exact hhex _
  · rw [asciiOnly_append, hhex, hhex]
    rfl

theorem asciiOnly_escapeStr (s : List Char) : asciiOnly (escapeStr s) = true := by
  induction s with
  | nil => rfl
  | cons c cs ih =>
    rw [escapeStr, asciiOnly_append, asciiOnly_escapeChar, ih]
    rfl

theorem asciiOnly_natDigits (n : Nat) : asciiOnly (natDigits n) = true := by
  induction n using Nat.strong_induction_on with
  | _ n ih =>
    unfold natDigits
    split
    · rename_i h
      rw [asciiOnly_cons]
      rw [show (Char.ofNat (48 + n)).toNat = 48 + n from toNat_ofNat_of_lt (by omega)]
      simp only [asciiOnly, List.all_nil, Bool.and_true]
      simp
      omega
    · rename_i h
      rw [asciiOnly_append, ih (n / 10) (Nat.div_lt_self (by omega) (by omega)),
        asciiOnly_cons]
      rw [show (Char.ofNat (48 + n % 10)).toNat = 48 + n % 10 from
        toNat_ofNat_of_lt (by omega)]
      simp only [asciiOnly, List.all_nil, Bool.and_true, Bool.true_and]
      simp
      omega

theorem asciiOnly_intChars (i : Int) : asciiOnly (intChars i) = true := by
  cases i with
  | ofNat n => exact asciiOnly_natDigits n
  | negSucc m =>
    rw [intChars, asciiOnly_cons, asciiOnly_natDigits]
    decide

/-- First-match association lookup, as a JSON decoder produces for the
dicts at hand (all keys distinct). -/
def lookupField : List (List Char × JVal) → List Char → Option JVal
  | [], _ => none
  | (k, v) :: fs, key => if k = key then some v else lookupField fs key

/-- Field access on an object value. -/
def getField (v : JVal) (key : List Char) : Option JVal :=
  match v with
  | .jobj fs => lookupField fs key
  | _ => none

/-- C6: every message built by `create_lsp_message` carries exactly the
keys `jsonrpc`, `method`, `params` — plus `id` exactly when an identifier
was supplied — in that order; `jsonrpc` always holds the constant version
string `"2.0"`, `method` and `params` hold the supplied arguments, and
looking up `id` returns precisely the supplied identifier (absent for a
notification). -/
theorem message_fields_exact (m : ProtocolMessage) :
    (msgFields m).map Prod.fst
      = ["jsonrpc".data, "method".data, "params".data]
        ++ (match m.id with | some _ => ["id".data] | none => [])
    ∧ lookupField (msgFields m) ("jsonrpc".data) = some (.jstr "2.0".data)
    ∧ lookupField (msgFields m) ("method".data) = some (.jstr m.method)
    ∧ lookupField (msgFields m) ("params".data) = some m.params
    ∧ lookupField (msgFields m) ("id".data) = m.id := by
  cases hid : m.id with
  | none =>
    refine ⟨?_, ?_, ?_, ?_, ?_⟩ <;>
      simp [msgFields, hid, lookupField]
  | some i =>
    refine ⟨?_, ?_, ?_, ?_, ?_⟩ <;>
      simp [msgFields, hid, lookupField]

/-- Value of one hex digit (either case) in a `\uXXXX` escape. -/
def hexVal (c : Char) : Option Nat :=
  if 48 ≤ c.toNat ∧ c.toNat ≤ 57 then some (c.toNat - 48)
  else if 97 ≤ c.toNat ∧ c.toNat ≤ 102 then some (c.toNat - 87)
  else if 65 ≤ c.toNat ∧ c.toNat ≤ 70 then some (c.toNat - 55)
  else none

/-- The two-character escapes a JSON decoder accepts after a backslash
(other than `\uXXXX`), by the code of the escape letter. -/
def escShort (n : Nat) : Option Char :=
  if n = 34 then some (Char.ofNat 34)
  else if n = 92 then some (Char.ofNat 92)
  else if n = 47 then some (Char.ofNat 47)
  else if n = 98 then some (Char.ofNat 8)
  else if n = 102 then some (Char.ofNat 12)
  else if n = 110 then some (Char.ofNat 10)
  else if n = 114 then some (Char.ofNat 13)
  else if n = 116 then some (Char.ofNat 9)
  else none

/-- Value of a 4-digit hex group. -/
def hex4Val (h1 h2 h3 h4 : Char) : Option Nat :=
  match hexVal h1, hexVal h2, hexVal h3, hexVal h4 with
  | some a, some b, some c, some d => some (a * 4096 + b * 256 + c * 16 + d)
  | _, _, _, _ => none

/-- After a high surrogate `\uXXXX` group with value `n`, decode the
mandatory low surrogate group and recombine the pair into one code
point. -/
def parseLowSur (n : Nat) : List Char → Option (Char × List Char)
  | b2 :: u2 :: g1 :: g2 :: g3 :: g4 :: r3 =>
    if b2.toNat = 92 ∧ u2.toNat = 117 then
      match hex4Val g1 g2 g3 g4 with
      | some m =>
        if 56320 ≤ m ∧ m ≤ 57343 then
          some (Char.ofNat (65536 + (n - 55296) * 1024 + (m - 56320)), r3)
        else none
      | none => none
    else none
  | _ => none

/-- Decode what follows a backslash in a JSON string: either a short
escape or a `\uXXXX` group, with a high/low surrogate pair recombined
into one code point (a lone surrogate is rejected: a Lean `Char` cannot
carry it). Returns the decoded character and the unconsumed input. -/
def parseEsc : List Char → Option (Char × List Char)
  | [] => none
  | e :: r1 =>
    if e.toNat = 117 then
      match r1 with
      | h1 :: h2 :: h3 :: h4 :: r2 =>
        match hex4Val h1 h2 h3 h4 with
        | none => none
        | some n =>
          if n < 55296 then some (Char.ofNat n, r2)
          else if n ≤ 56319 then parseLowSur n r2
          else if n ≤ 57343 then none
          else some (Char.ofNat n, r2)
      | _ => none
    else
      match escShort e.toNat with
      | some ch => some (ch, r1)
      | none => none

/-- Decode a JSON string body up to and including its closing quote,
returning the decoded characters and the unconsumed input (fueled by the
number of decoded characters). -/
def parseStringBody : Nat → List Char → Option (List Char × List Char)
  | 0, _ => none
  | _ + 1, [] => none
  | fuel + 1, c :: r =>
    if c.toNat = 34 then some ([], r)
    else if c.toNat = 92 then
      match parseEsc r with
      | some (ch, r2) => Option.map (fun p => (ch :: p.1, p.2)) (parseStringBody fuel r2)
      | none => none
    else
      Option.map (fun p => (c :: p.1, p.2)) (parseStringBody fuel r)

/-- Greedily consume decimal digits, accumulating their value. -/
def parseDigitsAux : List Char → Nat → Nat × List Char
  | [], acc => (acc, [])
  | c :: r, acc =>
    if 48 ≤ c.toNat ∧ c.toNat ≤ 57 then parseDigitsAux r (acc * 10 + (c.toNat - 48))
    else (acc, c :: r)

/-- Parse a nonempty run of decimal digits. -/
def parseDigits : List Char → Option (Nat × List Char)
  | [] => none
  | c :: r =>
    if 48 ≤ c.toNat ∧ c.toNat ≤ 57 then some (parseDigitsAux r (c.toNat - 48))
    else none

/-- Skip blanks, as a decoder does after `,` and `:` separators. -/
def skipSpaces : List Char → List Char
  | [] => []
  | c :: r => if c.toNat = 32 then skipSpaces r else c :: r

mutual
/-- Recursive-descent JSON value decoder (fueled): keywords, strings with
escapes, integers, arrays, and objects, accepting the separator blanks
`json.dumps` emits. -/
def parseVal : Nat → List Char → Option (JVal × List Char)
  | 0, _ => none
  | _ + 1, [] => none
  | fuel + 1, c :: r =>
    if c.toNat = 110 then
      match r with
      | u :: l1 :: l2 :: r2 =>
        if u.toNat = 117 ∧ l1.toNat = 108 ∧ l2.toNat = 108 then some (.jnull, r2) else none
      | _ => none
    else if c.toNat = 116 then
      match r with
      | a :: b :: d :: r2 =>
        if a.toNat = 114 ∧ b.toNat = 117 ∧ d.toNat = 101 then some (.jbool true, r2) else none
      | _ => none
    else if c.toNat = 102 then
      match r with
      | a :: b :: d :: e :: r2 =>
        if a.toNat = 97 ∧ b.toNat = 108 ∧ d.toNat = 115 ∧ e.toNat = 101 then
          some (.jbool false, r2)
        else none
      | _ => none
    else if c.toNat = 34 then
      match parseStringBody (r.length + 1) r with
      | some (s, r2) => some (.jstr s, r2)
      | none => none
    else if c.toNat = 91 then
      match r with
      | [] => none
      | d :: r1 =>
        if d.toNat = 93 then some (.jarr [], r1)
        else
          match parseVal fuel (d :: r1) with
          | none => none
          | some (v, r2) =>
            match parseElems fuel r2 with
            | none => none
            | some (vs, r3) => some (.jarr (v :: vs), r3)
    else if c.toNat = 123 then
      match r with
      | [] => none
      | d :: r1 =>
        if d.toNat = 125 then some (.jobj [], r1)
        else
          match parseMember fuel (d :: r1) with
          | none => none
          | some (f, r2) =>
            match parseMembers fuel r2 with
            | none => none
            | some (fs, r3) => some (.jobj (f :: fs), r3)
    else if c.toNat = 45 then
      match parseDigits r with
      | none => none
      | some (n, r2) => some (.jint (-(n : Int)), r2)
    else if 48 ≤ c.toNat ∧ c.toNat ≤ 57 then
      match parseDigits (c :: r) with
      | none => none
      | some (n, r2) => some (.jint (n : Int), r2)
    else none

/-- After one array element: `]` closes, `,` (plus blanks) precedes the
next element. -/
def parseElems : Nat → List Char → Option (List JVal × List Char)
  | 0, _ => none
  | _ + 1, [] => none
  | fuel + 1, c :: r =>
    if c.toNat = 93 then some ([], r)
    else if c.toNat = 44 then
      match parseVal fuel (skipSpaces r) with
      | none => none
      | some (v, r2) =>
        match parseElems fuel r2 with
        | none => none
        | some (vs, r3) => some (v :: vs, r3)
    else none

/-- One `"key": value` entry of an object. -/
def parseMember : Nat → List Char → Option ((List Char × JVal) × List Char)
  | 0, _ => none
  | _ + 1, [] => none
  | fuel + 1, c :: r =>
    if c.toNat = 34 then
      match parseStringBody (r.length + 1) r with
      | none => none
      | some (k, r1) =>
        match r1 with
        | [] => none
        | d :: r2 =>
          if d.toNat = 58 then
            match parseVal fuel (skipSpaces r2) with
            | none => none
            | some (v, r3) => some ((k, v), r3)
          else none
    else none

/-- After one object entry: `}` closes, `,` (plus blanks) precedes the
next entry. -/
def parseMembers : Nat → List Char → Option (List (List Char × JVal) × List Char)
  | 0, _ => none
  | _ + 1, [] => none
  | fuel + 1, c :: r =>
    if c.toNat = 125 then some ([], r)
    else if c.toNat = 44 then
      match parseMember fuel (skipSpaces r) with
      | none => none
      | some (f, r2) =>
        match parseMembers fuel r2 with
        | none => none
        | some (fs, r3) => some (f :: fs, r3)
    else none
end

theorem hexVal_hexDigitChar {d : Nat} (h : d < 16) : hexVal (hexDigitChar d) = some d := by
  have ht := hexDigitChar_toNat h
  unfold hexVal
  by_cases h10 : d < 10
  · rw [if_pos h10] at ht
    rw [ht, if_pos (by omega)]
    congr 1
    omega
  · rw [if_neg h10] at ht
    rw [ht, if_neg (by omega), if_pos (by omega)]
    congr 1
    omega

/-- A `Char` never holds a surrogate code point. -/
theorem char_toNat_not_surrogate (c : Char) :
    c.toNat < 55296 ∨ (57343 < c.toNat ∧ c.toNat < 1114112) := c.valid


theorem hex4Val_hex4 {n : Nat} (h : n < 65536) :
    hex4Val (hexDigitChar (n / 4096 % 16)) (hexDigitChar (n / 256 % 16))
      (hexDigitChar (n / 16 % 16)) (hexDigitChar (n % 16)) = some n := by
  simp only [hex4Val, hexVal_hexDigitChar (show n / 4096 % 16 < 16 by omega),
    hexVal_hexDigitChar (show n / 256 % 16 < 16 by omega),
    hexVal_hexDigitChar (show n / 16 % 16 < 16 by omega),
    hexVal_hexDigitChar (show n % 16 < 16 by omega)]
  congr 1
  omega

theorem parseEsc_u (n : Nat) (t : List Char)
    (hn : n < 65536) (hval : n < 55296 ∨ 57343 < n) :
    parseEsc ('u' :: (hex4 n ++ t)) = some (Char.ofNat n, t) := by
  simp only [hex4, List.cons_append, List.nil_append]
  simp +decide only [parseEsc, reduceIte, hex4Val_hex4 hn]
  rcases hval with hlt | hgt
  · rw [if_pos hlt]
  · rw [if_neg (by omega), if_neg (by omega), if_neg (by omega)]

theorem parseLowSur_eval (hi lo : Nat) (t : List Char)
    (hlo : 56320 ≤ lo) (hlo2 : lo ≤ 57343) (hlt : lo < 65536) :
    parseLowSur hi ('\\' :: 'u' :: (hex4 lo ++ t))
      = some (Char.ofNat (65536 + (hi - 55296) * 1024 + (lo - 56320)), t) := by
  simp only [hex4, List.cons_append, List.nil_append]
  simp +decide only [parseLowSur, reduceIte, hex4Val_hex4 hlt]
  rw [if_pos ⟨hlo, hlo2⟩]

theorem parseEsc_pair (hi lo : Nat) (t : List Char)
    (hhi1 : 55296 ≤ hi) (hhi2 : hi ≤ 56319) (hlo1 : 56320 ≤ lo) (hlo2 : lo ≤ 57343) :
    parseEsc ('u' :: (hex4 hi ++ ('\\' :: 'u' :: (hex4 lo ++ t))))
      = some (Char.ofNat (65536 + (hi - 55296) * 1024 + (lo - 56320)), t) := by
  have hrec1 := hex4Val_hex4 (show hi < 65536 by omega)
  have hL := parseLowSur_eval hi lo t hlo1 hlo2 (by omega)
  simp only [hex4, List.cons_append, List.nil_append] at hL ⊢
  simp +decide only [parseEsc, reduceIte, hrec1]
  rw [if_neg (show ¬hi < 55296 by omega), if_pos hhi2, hL]

theorem parseStringBody_lit (c : Char) (f : Nat) (t : List Char)
    (h34 : c.toNat ≠ 34) (h92 : c.toNat ≠ 92) :
    parseStringBody (f + 1) (c :: t)
      = Option.map (fun p => (c :: p.1, p.2)) (parseStringBody f t) := by
  simp only [parseStringBody]
  rw [if_neg h34, if_neg h92]

/-- Decoding inverts `json.dumps` escaping, one source character at a
time. -/
theorem parseStringBody_escapeChar (c : Char) (f : Nat) (t : List Char) :
    parseStringBody (f + 1) (escapeChar c ++ t)
      = Option.map (fun p => (c :: p.1, p.2)) (parseStringBody f t) := by
  have hofc := Char.ofNat_toNat c
  by_cases h34 : c.toNat = 34
  · rw [escapeChar, if_pos h34, ← show Char.ofNat 34 = c from by rw [← h34, hofc]]
    rfl
  by_cases h92 : c.toNat = 92
  · rw [escapeChar, if_neg h34, if_pos h92,
      ← show Char.ofNat 92 = c from by rw [← h92, hofc]]
    rfl
  by_cases h8 : c.toNat = 8
  · rw [escapeChar, if_neg h34, if_neg h92, if_pos h8,
      ← show Char.ofNat 8 = c from by rw [← h8, hofc]]
    rfl
  by_cases h9 : c.toNat = 9
  · rw [escapeChar, if_neg h34, if_neg h92, if_neg h8, if_pos h9,
      ← show Char.ofNat 9 = c from by rw [← h9, hofc]]
    rfl
  by_cases h10 : c.toNat = 10
  · rw [escapeChar, if_neg h34, if_neg h92, if_neg h8, if_neg h9, if_pos h10,
      ← show Char.ofNat 10 = c from by rw [← h10, hofc]]
    rfl
  by_cases h12 : c.toNat = 12
  · rw [escapeChar, if_neg h34, if_neg h92, if_neg h8, if_neg h9, if_neg h10, if_pos h12,
      ← show Char.ofNat 12 = c from by rw [← h12, hofc]]
    rfl
  by_cases h13 : c.toNat = 13
  · rw [escapeChar, if_neg h34, if_neg h92, if_neg h8, if_neg h9, if_neg h10, if_neg h12,
      if_pos h13, ← show Char.ofNat 13 = c from by rw [← h13, hofc]]
    rfl
  by_cases hpr : 32 ≤ c.toNat ∧ c.toNat ≤ 126
  · rw [escapeChar, if_neg h34, if_neg h92, if_neg h8, if_neg h9, if_neg h10, if_neg h12,
      if_neg h13, if_pos hpr, List.singleton_append, parseStringBody_lit c f t h34 h92]
  by_cases hlt : c.toNat < 65536
  · rw [escapeChar, if_neg h34, if_neg h92, if_neg h8, if_neg h9, if_neg h10, if_neg h12,
      if_neg h13, if_neg hpr, if_pos hlt]
    have hval : c.toNat < 55296 ∨ 57343 < c.toNat := by
      rcases char_toNat_not_surrogate c with h | h
      · exact Or.inl h
      · exact Or.inr h.1
    rw [show ('\\' :: 'u' :: hex4 c.toNat) ++ t = '\\' :: ('u' :: (hex4 c.toNat ++ t)) from
      by simp]
    simp only [parseStringBody]
    rw [if_neg (by decide), if_pos (by decide), parseEsc_u c.toNat t hlt hval, hofc]
  · rw [escapeChar, if_neg h34, if_neg h92, if_neg h8, if_neg h9, if_neg h10, if_neg h12,
      if_neg h13, if_neg hpr, if_neg hlt]
    have hub : c.toNat < 1114112 := by
      rcases char_toNat_not_surrogate c with h | h
      · omega
      · exact h.2
    obtain ⟨hi, hhi⟩ : ∃ hi, 55296 + (c.toNat - 65536) / 1024 = hi := ⟨_, rfl⟩
    obtain ⟨lo, hlo⟩ : ∃ lo, 56320 + (c.toNat - 65536) % 1024 = lo := ⟨_, rfl⟩
    rw [hhi, hlo]
    rw [show (('\\' :: 'u' :: hex4 hi) ++ ('\\' :: 'u' :: hex4 lo)) ++ t
        = '\\' :: ('u' :: (hex4 hi ++ ('\\' :: 'u' :: (hex4 lo ++ t)))) from by simp]
    simp only [parseStringBody]
    rw [if_neg (by decide), if_pos (by decide)]
    rw [parseEsc_pair hi lo t (by omega) (by omega) (by omega) (by omega)]
    rw [show 65536 + (hi - 55296) * 1024 + (lo - 56320) = c.toNat from by omega, hofc]

theorem parseStringBody_escapeStr (s : List Char) :
    ∀ (t : List Char) (f : Nat), s.length + 1 ≤ f →
      parseStringBody f (escapeStr s ++ ('"' :: t)) = some (s, t) := by
  induction s with
  | nil =>
    intro t f hf
    obtain ⟨f2, rfl⟩ : ∃ f2, f = f2 + 1 := ⟨f - 1, by omega⟩
    rfl
  | cons c cs ih =>
    intro t f hf
    obtain ⟨f2, rfl⟩ : ∃ f2, f = f2 + 1 := ⟨f - 1, by omega⟩
    rw [escapeStr, List.append_assoc, parseStringBody_escapeChar,
      ih t f2 (by simpa using Nat.lt_of_succ_le hf)]
    rfl

/-- The next input character (if any) is not a decimal digit — the
condition under which a greedy number parse stops exactly at a value
boundary. -/
def noDigitHead : List Char → Bool
  | [] => true
  | c :: _ => decide (¬(48 ≤ c.toNat ∧ c.toNat ≤ 57))

theorem parseDigitsAux_stop (s : List Char) (acc : Nat)
    (h : noDigitHead s = true) : parseDigitsAux s acc = (acc, s) := by
  cases s with
  | nil => rfl
  | cons c r =>
    simp only [noDigitHead, decide_eq_true_eq] at h
    simp only [parseDigitsAux]
    rw [if_neg h]

theorem parseDigitsAux_digit (m : Nat) (hm : m < 10) (a : Nat) (rest : List Char) :
    parseDigitsAux (Char.ofNat (48 + m) :: rest) a = parseDigitsAux rest (a * 10 + m) := by
  simp only [parseDigitsAux]
  rw [toNat_ofNat_of_lt (by omega), if_pos (by omega)]
  congr 1
  omega

theorem parseDigitsAux_natDigits (n : Nat) :
    ∀ (acc : Nat) (rest : List Char),
      parseDigitsAux (natDigits n ++ rest) acc
        = parseDigitsAux rest (acc * 10 ^ (natDigits n).length + n) := by
  induction n using Nat.strong_induction_on with
  | _ n ih =>
    intro acc rest
    by_cases h : n < 10
    · rw [natDigits, dif_pos h, List.singleton_append, parseDigitsAux_digit n h]
      simp
    · rw [natDigits, dif_neg h, List.append_assoc, List.singleton_append,
        ih (n / 10) (Nat.div_lt_self (by omega) (by omega)),
        parseDigitsAux_digit (n % 10) (by omega)]
      congr 1
      rw [List.length_append, List.length_singleton, pow_succ, ← Nat.mul_assoc]
      have hmod := Nat.div_add_mod n 10
      generalize acc * 10 ^ (natDigits (n / 10)).length = q
      omega

theorem natDigits_head (n : Nat) :
    ∃ c t0, natDigits n = c :: t0 ∧ 48 ≤ c.toNat ∧ c.toNat ≤ 57 := by
  induction n using Nat.strong_induction_on with
  | _ n ih =>
    by_cases h : n < 10
    · rw [natDigits, dif_pos h]
      refine ⟨Char.ofNat (48 + n), [], rfl, ?_, ?_⟩ <;>
        rw [toNat_ofNat_of_lt (by omega)] <;> omega
    · rw [natDigits, dif_neg h]
      obtain ⟨c, t0, heq, h1, h2⟩ := ih (n / 10) (Nat.div_lt_self (by omega) (by omega))
      exact ⟨c, t0 ++ [Char.ofNat (48 + n % 10)], by rw [heq]; rfl, h1, h2⟩

theorem parseDigits_natDigits (n : Nat) (rest : List Char) (h : noDigitHead rest = true) :
    parseDigits (natDigits n ++ rest) = some (n, rest) := by
  obtain ⟨c, t0, heq, h48, h57⟩ := natDigits_head n
  rw [heq, List.cons_append]
  simp only [parseDigits]
  rw [if_pos ⟨h48, h57⟩]
  have hstep : parseDigitsAux (t0 ++ rest) (c.toNat - 48)
      = parseDigitsAux ((c :: t0) ++ rest) 0 := by
    rw [List.cons_append]
    simp only [parseDigitsAux]
    rw [if_pos ⟨h48, h57⟩]
    congr 1
    omega
  rw [hstep, ← heq, parseDigitsAux_natDigits n 0 rest, parseDigitsAux_stop rest _ h]
  simp

theorem skipSpaces_space (r : List Char) : skipSpaces (' ' :: r) = skipSpaces r := by
  simp only [skipSpaces]
  rw [if_pos (by decide)]

theorem skipSpaces_noSpace (c : Char) (r : List Char) (h : c.toNat ≠ 32) :
    skipSpaces (c :: r) = c :: r := by
  simp only [skipSpaces]
  rw [if_neg h]

theorem escapeChar_length_pos (c : Char) : 1 ≤ (escapeChar c).length := by
  unfold escapeChar
  split
  · decide
  split
  · decide
  split
  · decide
  split
  · decide
  split
  · decide
  split
  · decide
  split
  · decide
  split
  · simp
  split
  · simp [hex4]
  · simp [hex4]

theorem escapeStr_length_ge (s : List Char) : s.length ≤ (escapeStr s).length := by
  induction s with
  | nil => simp [escapeStr]
  | cons c cs ih =>
    rw [escapeStr, List.length_append, List.length_cons]
    have := escapeChar_length_pos c
    omega

mutual
/-- Fuel needed by the recursive-descent decoder for a value. -/
def jsize : JVal → Nat
  | .jnull => 1
  | .jbool _ => 1
  | .jint _ => 1
  | .jstr _ => 1
  | .jarr xs => 1 + jsizeList xs
  | .jobj fs => 1 + jsizeMembers fs

/-- Fuel needed for the elements of an array. -/
def jsizeList : List JVal → Nat
  | [] => 1
  | x :: xs => jsize x + jsizeList xs

/-- Fuel needed for the entries of an object. -/
def jsizeMembers : List (List Char × JVal) → Nat
  | [] => 1
  | kv :: fs => 1 + jsize kv.2 + jsizeMembers fs
end

theorem jsize_pos (v : JVal) : 1 ≤ jsize v := by
  cases v <;> simp [jsize]

theorem jsizeList_pos (xs : List JVal) : 1 ≤ jsizeList xs := by
  cases xs with
  | nil => simp [jsizeList]
  | cons x xs =>
    have := jsize_pos x
    simp [jsizeList]
    omega

theorem jsizeMembers_pos (fs : List (List Char × JVal)) : 1 ≤ jsizeMembers fs := by
  cases fs with
  | nil => simp [jsizeMembers]
  | cons kv fs =>
    simp only [jsizeMembers]
    omega

/-- Every serialized value starts with a character that is neither a
blank nor a closing bracket. -/
theorem dumpVal_head (v : JVal) :
    ∃ c t0, dumpVal v = c :: t0 ∧ c.toNat ≠ 32 ∧ c.toNat ≠ 93 := by
  cases v with
  | jnull => exact ⟨'n', _, rfl, by decide, by decide⟩
  | jbool b =>
    cases b with
    | true => exact ⟨'t', _, rfl, by decide, by decide⟩
    | false => exact ⟨'f', _, rfl, by decide, by decide⟩
  | jint i =>
    cases i with
    | ofNat n =>
      obtain ⟨c, t0, heq, h1, h2⟩ := natDigits_head n
      exact ⟨c, t0, heq, by omega, by omega⟩
    | negSucc m => exact ⟨'-', _, rfl, by decide, by decide⟩
  | jstr s => exact ⟨'"', _, rfl, by decide, by decide⟩
  | jarr xs =>
    cases xs with
    | nil => exact ⟨'[', _, rfl, by decide, by decide⟩
    | cons x xs => exact ⟨'[', _, rfl, by decide, by decide⟩
  | jobj fs =>
    cases fs with
    | nil => exact ⟨'\x7b', _, rfl, by decide, by decide⟩
    | cons f fs => exact ⟨'\x7b', _, rfl, by decide, by decide⟩

theorem noDigitHead_dumpElems (xs : List JVal) (rest : List Char) :
    noDigitHead (dumpElems xs ++ (']' :: rest)) = true := by
  cases xs with
  | nil => rfl
  | cons x xs => rfl

theorem noDigitHead_dumpMembers (fs : List (List Char × JVal)) (rest : List Char) :
    noDigitHead (dumpMembers fs ++ ('\x7d' :: rest)) = true := by
  cases fs with
  | nil => rfl
  | cons kv fs => rfl

/-- Round trip: the recursive-descent decoder inverts `json.dumps` on
every value, for every fuel bound at least `jsize` (stated simultaneously
for values, array tails, object entries, and object tails). -/
theorem parse_dump (fuel : Nat) :
    (∀ (v : JVal) (rest : List Char), jsize v ≤ fuel → noDigitHead rest = true →
      parseVal fuel (dumpVal v ++ rest) = some (v, rest))
    ∧ (∀ (xs : List JVal) (rest : List Char), jsizeList xs ≤ fuel →
      parseElems fuel (dumpElems xs ++ (']' :: rest)) = some (xs, rest))
    ∧ (∀ (k : List Char) (v : JVal) (rest : List Char), jsize v < fuel →
        noDigitHead rest = true →
      parseMember fuel (dumpMember (k, v) ++ rest) = some ((k, v), rest))
    ∧ (∀ (fs : List (List Char × JVal)) (rest : List Char), jsizeMembers fs ≤ fuel →
      parseMembers fuel (dumpMembers fs ++ ('\x7d' :: rest)) = some (fs, rest)) := by
  induction fuel with
  | zero =>
    refine ⟨?_, ?_, ?_, ?_⟩
    · intro v rest hsz _
      exact absurd hsz (by have := jsize_pos v; omega)
    · intro xs rest hsz
      exact absurd hsz (by have := jsizeList_pos xs; omega)
    · intro k v rest hsz _
      exact absurd hsz (by omega)
    · intro fs rest hsz
      exact absurd hsz (by have := jsizeMembers_pos fs; omega)
  | succ fuel ih =>
    obtain ⟨ihv, ihe, ihm, ihms⟩ := ih
    refine ⟨?_, ?_, ?_, ?_⟩
    · intro v rest hsz hnd
      cases v with
      | jnull => rfl
      | jbool b => cases b <;> rfl
      | jint i =>
        cases i with
        | ofNat n =>
          obtain ⟨c, t0, heq, h48, h57⟩ := natDigits_head n
          have hdump : dumpVal (.jint (.ofNat n)) = c :: t0 := by
            rw [show dumpVal (.jint (.ofNat n)) = natDigits n from rfl, heq]
          rw [hdump, List.cons_append]
          simp only [parseVal]
          rw [if_neg (by omega), if_neg (by omega), if_neg (by omega), if_neg (by omega),
            if_neg (by omega), if_neg (by omega), if_neg (by omega), if_pos ⟨h48, h57⟩,
            ← List.cons_append, ← heq, parseDigits_natDigits n rest hnd]
          rfl
        | negSucc m =>
          have hdump : dumpVal (.jint (.negSucc m)) ++ rest
              = '-' :: (natDigits (m + 1) ++ rest) := by
            rw [show dumpVal (.jint (.negSucc m)) = '-' :: natDigits (m + 1) from rfl,
              List.cons_append]
          rw [hdump]
          simp only [parseVal]
          rw [if_neg (by decide), if_neg (by decide), if_neg (by decide), if_neg (by decide),
            if_neg (by decide), if_neg (by decide), if_pos (by decide),
            parseDigits_natDigits (m + 1) rest hnd]
          rfl
      | jstr s =>
        have hdump : dumpVal (.jstr s) ++ rest = '"' :: (escapeStr s ++ ('"' :: rest)) := by
          rw [show dumpVal (.jstr s) = '"' :: (escapeStr s ++ ['"']) from rfl,
            List.cons_append, List.append_assoc, List.singleton_append]
        rw [hdump]
        simp only [parseVal]
        rw [if_neg (by decide), if_neg (by decide), if_neg (by decide), if_pos (by decide),
          parseStringBody_escapeStr s rest _ (by
            simp only [List.length_append, List.length_cons]
            have := escapeStr_length_ge s
            omega)]
      | jarr xs =>
        cases xs with
        | nil => rfl
        | cons x xs =>
          simp only [jsize, jsizeList] at hsz
          have hszx : jsize x ≤ fuel := by
            have := jsizeList_pos xs
            omega
          have hszxs : jsizeList xs ≤ fuel := by
            have := jsize_pos x
            omega
          obtain ⟨c0, t0, heq0, h32, h93⟩ := dumpVal_head x
          have hdump : dumpVal (.jarr (x :: xs)) ++ rest
              = '[' :: (c0 :: (t0 ++ (dumpElems xs ++ (']' :: rest)))) := by
            rw [show dumpVal (.jarr (x :: xs))
                = '[' :: (dumpVal x ++ dumpElems xs ++ [']']) from rfl, heq0]
            simp [List.append_assoc]
          have hx : parseVal fuel (c0 :: (t0 ++ (dumpElems xs ++ (']' :: rest))))
              = some (x, dumpElems xs ++ (']' :: rest)) := by
            rw [← List.cons_append, ← heq0]
            exact ihv x _ hszx (noDigitHead_dumpElems xs rest)
          rw [hdump]
          simp +decide only [parseVal, reduceIte, h93, hx, ihe xs rest hszxs]
      | jobj fs =>
        cases fs with
        | nil => rfl
        | cons kv fs =>
          obtain ⟨k, v⟩ := kv
          simp only [jsize, jsizeMembers] at hsz
          have hszv : jsize v < fuel := by
            have := jsizeMembers_pos fs
            omega
          have hszfs : jsizeMembers fs ≤ fuel := by
            have := jsize_pos v
            omega
          have hdump : dumpVal (.jobj ((k, v) :: fs)) ++ rest
              = '\x7b' :: ('"' :: ((escapeStr k ++ ('"' :: ':' :: ' ' :: dumpVal v))
                  ++ (dumpMembers fs ++ ('\x7d' :: rest)))) := by
            rw [show dumpVal (.jobj ((k, v) :: fs))
                = '\x7b' :: (dumpMember (k, v) ++ dumpMembers fs ++ ['\x7d']) from rfl,
              show dumpMember (k, v)
                = '"' :: (escapeStr k ++ ('"' :: ':' :: ' ' :: dumpVal v)) from rfl]
            simp [List.append_assoc]
          have hm : parseMember fuel
              ('"' :: ((escapeStr k ++ ('"' :: ':' :: ' ' :: dumpVal v))
                ++ (dumpMembers fs ++ ('\x7d' :: rest))))
              = some ((k, v), dumpMembers fs ++ ('\x7d' :: rest)) := by
            have := ihm k v (dumpMembers fs ++ ('\x7d' :: rest)) hszv
              (noDigitHead_dumpMembers fs rest)
            rw [show dumpMember (k, v) ++ (dumpMembers fs ++ ('\x7d' :: rest))
                = '"' :: ((escapeStr k ++ ('"' :: ':' :: ' ' :: dumpVal v))
                  ++ (dumpMembers fs ++ ('\x7d' :: rest))) from by
              rw [show dumpMember (k, v)
                  = '"' :: (escapeStr k ++ ('"' :: ':' :: ' ' :: dumpVal v)) from rfl]
              simp [List.append_assoc]] at this
            exact this
          rw [hdump]
          simp +decide only [parseVal, reduceIte, hm, ihms fs rest hszfs]
    · intro xs rest hsz
      cases xs with
      | nil => rfl
      | cons x xs =>
        simp only [jsizeList] at hsz
        have hszx : jsize x ≤ fuel := by
          have := jsizeList_pos xs
          omega
        have hszxs : jsizeList xs ≤ fuel := by
          have := jsize_pos x
          omega
        obtain ⟨c0, t0, heq0, h32, h93⟩ := dumpVal_head x
        have hdump : dumpElems (x :: xs) ++ (']' :: rest)
            = ',' :: ' ' :: (c0 :: (t0 ++ (dumpElems xs ++ (']' :: rest)))) := by
          rw [show dumpElems (x :: xs) = ',' :: ' ' :: (dumpVal x ++ dumpElems xs) from rfl,
            heq0]
          simp [List.append_assoc]
        have hskip : skipSpaces (' ' :: (c0 :: (t0 ++ (dumpElems xs ++ (']' :: rest)))))
            = c0 :: (t0 ++ (dumpElems xs ++ (']' :: rest))) := by
          rw [skipSpaces_space, skipSpaces_noSpace c0 _ h32]
        have hx : parseVal fuel (c0 :: (t0 ++ (dumpElems xs ++ (']' :: rest))))
            = some (x, dumpElems xs ++ (']' :: rest)) := by
          rw [← List.cons_append, ← heq0]
          exact ihv x _ hszx (noDigitHead_dumpElems xs rest)
        rw [hdump]
        simp +decide only [parseElems, reduceIte, hskip, hx, ihe xs rest hszxs]
    · intro k v rest hsz hnd
      have hszv : jsize v ≤ fuel := by omega
      obtain ⟨c0, t0, heq0, h32, h93⟩ := dumpVal_head v
      have hdump : dumpMember (k, v) ++ rest
          = '"' :: (escapeStr k ++ ('"' :: (':' :: ' ' :: (dumpVal v ++ rest)))) := by
        rw [show dumpMember (k, v)
            = '"' :: (escapeStr k ++ ('"' :: ':' :: ' ' :: dumpVal v)) from rfl]
        simp [List.append_assoc]
      have hkey : parseStringBody
          ((escapeStr k ++ ('"' :: (':' :: ' ' :: (dumpVal v ++ rest)))).length + 1)
          (escapeStr k ++ ('"' :: (':' :: ' ' :: (dumpVal v ++ rest))))
          = some (k, ':' :: ' ' :: (dumpVal v ++ rest)) := by
        refine parseStringBody_escapeStr k _ _ ?_
        simp only [List.length_append, List.length_cons]
        have := escapeStr_length_ge k
        omega
      have hskip : skipSpaces (' ' :: (dumpVal v ++ rest)) = dumpVal v ++ rest := by
        rw [heq0, List.cons_append, skipSpaces_space, skipSpaces_noSpace c0 _ h32,
          ← List.cons_append, ← heq0]
      rw [hdump]
      simp +decide only [parseMember, reduceIte, hkey, hskip, ihv v rest hszv hnd]
    · intro fs rest hsz
      cases fs with
      | nil => rfl
      | cons kv fs =>
        obtain ⟨k, v⟩ := kv
        simp only [jsizeMembers] at hsz
        have hszv : jsize v < fuel := by
          have := jsizeMembers_pos fs
          omega
        have hszfs : jsizeMembers fs ≤ fuel := by
          have := jsize_pos v
          omega
        have hdump : dumpMembers ((k, v) :: fs) ++ ('\x7d' :: rest)
            = ',' :: ' ' :: (dumpMember (k, v) ++ (dumpMembers fs ++ ('\x7d' :: rest))) := by
          rw [show dumpMembers ((k, v) :: fs)
              = ',' :: ' ' :: (dumpMember (k, v) ++ dumpMembers fs) from rfl]
          simp [List.append_assoc]
        have hskip : skipSpaces (' ' :: (dumpMember (k, v) ++ (dumpMembers fs ++ ('\x7d' :: rest))))
            = dumpMember (k, v) ++ (dumpMembers fs ++ ('\x7d' :: rest)) := by
          rw [show dumpMember (k, v) ++ (dumpMembers fs ++ ('\x7d' :: rest))
              = '"' :: ((escapeStr k ++ ('"' :: ':' :: ' ' :: dumpVal v))
                ++ (dumpMembers fs ++ ('\x7d' :: rest))) from by
            rw [show dumpMember (k, v)
                = '"' :: (escapeStr k ++ ('"' :: ':' :: ' ' :: dumpVal v)) from rfl]
            simp [List.append_assoc]]
          rw [skipSpaces_space, skipSpaces_noSpace '"' _ (by decide)]
        have hm := ihm k v (dumpMembers fs ++ ('\x7d' :: rest)) hszv
          (noDigitHead_dumpMembers fs rest)
        rw [hdump]
        simp +decide only [parseMembers, reduceIte, hskip, hm, ihms fs rest hszfs]

mutual
/-- The decoder fuel `jsize` is covered by the serialized length. -/
theorem jsize_le_len : (v : JVal) → jsize v ≤ (dumpVal v).length
  | .jnull => by simp [jsize, dumpVal]
  | .jbool true => by simp [jsize, dumpVal]
  | .jbool false => by simp [jsize, dumpVal]
  | .jint i => by
      have := jsize_pos (.jint i)
      have : 1 ≤ (dumpVal (.jint i)).length := by
        obtain ⟨c, t0, heq, _, _⟩ := dumpVal_head (.jint i)
        rw [heq]
        simp
      simp only [jsize]
      omega
  | .jstr s => by simp [jsize, dumpVal]
  | .jarr [] => by simp [jsize, jsizeList, dumpVal]
  | .jarr (x :: xs) => by
      have h1 := jsize_le_len x
      have h2 := jsizeList_le_elems xs
      simp only [jsize, jsizeList, dumpVal, List.length_cons, List.length_append]
      omega
  | .jobj [] => by simp [jsize, jsizeMembers, dumpVal]
  | .jobj ((k, v) :: fs) => by
      have h1 := jsize_le_len v
      have h2 := jsizeMembers_le_members fs
      simp only [jsize, jsizeMembers, dumpVal, dumpMember, List.length_cons,
        List.length_append]
      omega

theorem jsizeList_le_elems : (xs : List JVal) → jsizeList xs ≤ (dumpElems xs).length + 1
  | [] => by simp [jsizeList, dumpElems]
  | x :: xs => by
      have h1 := jsize_le_len x
      have h2 := jsizeList_le_elems xs
      simp only [jsizeList, dumpElems, List.length_cons, List.length_append]
      omega

theorem jsizeMembers_le_members :
    (fs : List (List Char × JVal)) → jsizeMembers fs ≤ (dumpMembers fs).length + 1
  | [] => by simp [jsizeMembers, dumpMembers]
  | (k, v) :: fs => by
      have h1 := jsize_le_len v
      have h2 := jsizeMembers_le_members fs
      simp only [jsizeMembers, dumpMembers, dumpMember, List.length_cons,
        List.length_append]
      omega
end

mutual
/-- With `ensure_ascii`, every serialized value is pure ASCII. -/
theorem asciiOnly_dumpVal : (v : JVal) → asciiOnly (dumpVal v) = true
  | .jnull => by decide
  | .jbool true => by decide
  | .jbool false => by decide
  | .jint i => by
      rw [show dumpVal (.jint i) = intChars i from rfl]
      exact asciiOnly_intChars i
  | .jstr s => by
      rw [show dumpVal (.jstr s) = '"' :: (escapeStr s ++ ['"']) from rfl,
        asciiOnly_cons, asciiOnly_append, asciiOnly_escapeStr]
      decide
  | .jarr [] => by decide
  | .jarr (x :: xs) => by
      have h1 := asciiOnly_dumpVal x
      have h2 := asciiOnly_dumpElems xs
      rw [show dumpVal (.jarr (x :: xs)) = '[' :: (dumpVal x ++ dumpElems xs ++ [']']) from
        rfl, asciiOnly_cons, asciiOnly_append, asciiOnly_append, h1, h2]
      decide
  | .jobj [] => by decide
  | .jobj (kv :: fs) => by
      have h1 := asciiOnly_dumpMember kv
      have h2 := asciiOnly_dumpMembers fs
      rw [show dumpVal (.jobj (kv :: fs))
          = '\x7b' :: (dumpMember kv ++ dumpMembers fs ++ ['\x7d']) from rfl,
        asciiOnly_cons, asciiOnly_append, asciiOnly_append, h1, h2]
      decide

theorem asciiOnly_dumpElems : (xs : List JVal) → asciiOnly (dumpElems xs) = true
  | [] => by decide
  | x :: xs => by
      have h1 := asciiOnly_dumpVal x
      have h2 := asciiOnly_dumpElems xs
      rw [show dumpElems (x :: xs) = ',' :: ' ' :: (dumpVal x ++ dumpElems xs) from rfl,
        asciiOnly_cons, asciiOnly_cons, asciiOnly_append, h1, h2]
      decide

theorem asciiOnly_dumpMember : (kv : List Char × JVal) → asciiOnly (dumpMember kv) = true
  | (k, v) => by
      have h1 := asciiOnly_dumpVal v
      rw [show dumpMember (k, v)
          = '"' :: (escapeStr k ++ ('"' :: ':' :: ' ' :: dumpVal v)) from rfl,
        asciiOnly_cons, asciiOnly_append, asciiOnly_escapeStr, asciiOnly_cons,
        asciiOnly_cons, asciiOnly_cons, h1]
      decide

theorem asciiOnly_dumpMembers :
    (fs : List (List Char × JVal)) → asciiOnly (dumpMembers fs) = true
  | [] => by decide
  | kv :: fs => by
      have h1 := asciiOnly_dumpMember kv
      have h2 := asciiOnly_dumpMembers fs
      rw [show dumpMembers (kv :: fs) = ',' :: ' ' :: (dumpMember kv ++ dumpMembers fs) from
        rfl, asciiOnly_cons, asciiOnly_cons, asciiOnly_append, h1, h2]
      decide
end

/-- Decode a framed body as one JSON value spanning the whole body; the
fuel `body.length` covers anything the serializer can produce. -/
def decodeBody (body : List Char) : Option JVal :=
  match parseVal body.length body with
  | some (v, []) => some v
  | _ => none

theorem decodeBody_dumpVal (v : JVal) : decodeBody (dumpVal v) = some v := by
  have h := (parse_dump (dumpVal v).length).1 v [] (jsize_le_len v) rfl
  rw [List.append_nil] at h
  simp only [decodeBody, h]

/-- C2: for every protocol message — any method, any params (including
non-ASCII text, which `ensure_ascii` escapes), any optional id — the
`Content-Length` value computed by `create_lsp_message` (Python's
`len(content)`, a character count) equals the exact UTF-8 byte length of
the body; the frame is exactly the header, the blank line, and the body;
and JSON-decoding the body reproduces the full message dict, whose
`method`, `params`, and `id` fields are exactly the originals (`id`
absent when none was supplied). -/
theorem framing_round_trip (m : ProtocolMessage) :
    utf8Len (dumpVal (msgJson m)) = (dumpVal (msgJson m)).length
    ∧ createLspMessage m = "Content-Length: ".data
        ++ natDigits (utf8Len (dumpVal (msgJson m)))
        ++ ('\r' :: '\n' :: '\r' :: '\n' :: dumpVal (msgJson m))
    ∧ decodeBody (dumpVal (msgJson m)) = some (msgJson m)
    ∧ getField (msgJson m) ("method".data) = some (.jstr m.method)
    ∧ getField (msgJson m) ("params".data) = some m.params
    ∧ getField (msgJson m) ("id".data) = m.id := by
  have hascii := utf8Len_eq_length (asciiOnly_dumpVal (msgJson m))
  refine ⟨hascii, ?_, decodeBody_dumpVal (msgJson m), ?_, ?_, ?_⟩
  · rw [hascii]
    rfl
  · cases hid : m.id <;> simp [getField, msgJson, msgFields, hid, lookupField]
  · cases hid : m.id <;> simp [getField, msgJson, msgFields, hid, lookupField]
  · cases hid : m.id <;> simp [getField, msgJson, msgFields, hid, lookupField]

/-- The `initialize` params of the probe: the workspace locator as
`rootUri`, the same locator as the single named workspace folder, a null
process id, and an empty capability object. -/
def initParams (uri : List Char) : JVal :=
  .jobj [("processId".data, .jnull),
         ("rootUri".data, .jstr uri),
         ("workspaceFolders".data,
           .jarr [.jobj [("uri".data, .jstr uri), ("name".data, .jstr "test".data)]]),
         ("capabilities".data, .jobj [])]

/-- The synthetic Go source opened by the probe (the `text` field of the
`didOpen` params). -/
def goSourceText : List Char :=
  "package main\n\nimport \"./calculator\"\n\nfunc main() \x7b\n\tcalc := calculator.NewCalculator()\n\tresult := calc.Add(1, 2)\n\tprintln(result)\n\x7d".data

/-- The `textDocument/didOpen` params: one document whose URI is the
workspace locator with `/main.go` appended, language `go`, version 1. -/
def didOpenParams (uri : List Char) : JVal :=
  .jobj [("textDocument".data,
    .jobj [("uri".data, .jstr (uri ++ "/main.go".data)),
           ("languageId".data, .jstr "go".data),
           ("version".data, .jint 1),
           ("text".data, .jstr goSourceText)])]

/-- The frames written to the subprocess's input by
`test_workspace_recognition`, in program order: the `initialize` request
(id 1), the `initialized` notification (empty params, no id), and the
`textDocument/didOpen` notification (no id). -/
def probeWrites (uri : List Char) : List (List Char) :=
  [createLspMessage ⟨"initialize".data, initParams uri, some (.jint 1)⟩,
   createLspMessage ⟨"initialized".data, .jobj [], none⟩,
   createLspMessage ⟨"textDocument/didOpen".data, didOpenParams uri, none⟩]

/-- C7: for every workspace locator, the probe writes exactly three
frames, in this order: first the `initialize` request with id 1 whose
params carry the locator both as `rootUri` and as the single entry of
`workspaceFolders` (named `test`), then the `initialized` notification
with empty params and no id, then the `textDocument/didOpen` notification
with no id whose document has version 1 and the URI derived from the
locator by appending `/main.go`. -/
theorem probe_message_sequence (uri : List Char) :
    probeWrites uri
      = [createLspMessage ⟨"initialize".data, initParams uri, some (.jint 1)⟩,
         createLspMessage ⟨"initialized".data, .jobj [], none⟩,
         createLspMessage ⟨"textDocument/didOpen".data, didOpenParams uri, none⟩]
    ∧ getField (initParams uri) ("rootUri".data) = some (.jstr uri)
    ∧ getField (initParams uri) ("workspaceFolders".data)
        = some (.jarr [.jobj [("uri".data, .jstr uri), ("name".data, .jstr "test".data)]])
    ∧ (∃ td, getField (didOpenParams uri) ("textDocument".data) = some td
        ∧ getField td ("version".data) = some (.jint 1)
        ∧ getField td ("uri".data) = some (.jstr (uri ++ "/main.go".data))) := by
  refine ⟨rfl, ?_, ?_, ?_⟩
  · simp [initParams, getField, lookupField]
  · simp [initParams, getField, lookupField]
  · refine ⟨.jobj [("uri".data, .jstr (uri ++ "/main.go".data)),
      ("languageId".data, .jstr "go".data),
      ("version".data, .jint 1),
      ("text".data, .jstr goSourceText)], ?_, ?_, ?_⟩
    · simp [didOpenParams, getField, lookupField]
    · simp [getField, lookupField]
    · simp [getField, lookupField]
